import Mathlib

/-!
Shallow embedding of `src/fairpy/items/israels_MinMakespan_algorithm.py`:
the min-makespan approximation engine (schedule state, greedy assigner,
LP feasibility oracle, fractional rounding, binary-search driver).

Conventions of the embedding:
* rationals (`ℚ`) stand for the exact values of the Python floats;
* the numpy boolean assignment matrix is a function `Nat → Nat → Bool`
  together with the dimensions carried by the cost matrix;
* Python exceptions are `Except String`; an `Except.error` models an
  uncaught exception aborting the run;
* the external LP solver (`cvxpy`'s `prob.solve()`) is a parameter
  `ℚ → Option (Nat → Nat → ℚ)` returning, for a makespan bound, either a
  solution matrix (status `optimal`) or `none` (infeasible/non-optimal).
-/

/-- Cost matrix: `M` machines (rows / `agents`), `J` jobs (columns /
`objects`), entry `c m j` is the processing cost of job `j` on machine `m`. -/
structure CostMatrix where
  M : Nat
  J : Nat
  c : Nat → Nat → ℚ

/-- Machine indices, `self.costs.agents()` (i.e. `range(Mechines)`). -/
def agents (cm : CostMatrix) : List Nat := List.range cm.M

/-- Job indices, `self.costs.objects()` (i.e. `range(Jobs)`). -/
def objects (cm : CostMatrix) : List Nat := List.range cm.J

/-- Row-major enumeration of all (machine, job) pairs: the class iterator
`scedual.__iter__`, `itertools.product(agents, objects)`. -/
def pairsOf (cm : CostMatrix) : List (Nat × Nat) := (agents cm).product (objects cm)

/-- The mutable boolean assignment matrix of the Schedule State. -/
abbrev Asg := Nat → Nat → Bool

/-- Fresh all-false matrix: `scedual.build` / `scedual.clear`. -/
def emptyAsg : Asg := fun _ _ => false

/-- Setting one cell of the assignment matrix to `True`. -/
def setCell (a : Asg) (m j : Nat) : Asg :=
  fun m' j' => if m' = m ∧ j' = j then true else a m' j'

/-- The assign operation `scedual.scedual(mechine, job)` (source lines 70-73):
numpy index check, then the duplicate check `if self.assignments[mechine, job]:
raise KeyError(...)`, and only then the mutation.  The returned pair is the
Python outcome (normal return or raised exception) together with the matrix
as it stands afterwards. -/
def scedual (cm : CostMatrix) (a : Asg) (m j : Nat) : Except String Unit × Asg :=
  if m < cm.M ∧ j < cm.J then
    if a m j then (Except.error "assignment already scedualed", a)
    else (Except.ok (), setCell a m j)
  else (Except.error "index out of range", a)

/-- Current workload of a machine, `scedual.loadOf` (source lines 79-80):
sum of the costs of the jobs assigned to it. -/
def loadOf (cm : CostMatrix) (a : Asg) (m : Nat) : ℚ :=
  (((objects cm).filter (fun j => a m j)).map (fun j => cm.c m j)).sum

/-- Python's builtin `max` over a sequence of rationals: error (`none`) on an
empty sequence, otherwise the left fold of binary `max`. -/
def pyMax : List ℚ → Option ℚ
  | [] => none
  | x :: xs => some (xs.foldl max x)

/-- `scedual_makespan.extract_result` (source lines 123-131): the maximum over
all machines of that machine's total assigned cost. -/
def extract_result (cm : CostMatrix) (a : Asg) : Option ℚ :=
  pyMax ((agents cm).map (fun m =>
    (((objects cm).filter (fun j => a m j)).map (fun j => cm.c m j)).sum))

/-- Number of machines a given job is assigned to (number of `true` entries in
the job's column, over the valid machine indices). -/
def colCount (cm : CostMatrix) (a : Asg) (j : Nat) : Nat :=
  ((agents cm).filter (fun m => a m j)).length

/-- Accumulator loop of Python's builtin `min(..., key = key)`: the running
best is replaced only on a strictly smaller key, so the first minimizer wins. -/
def pyMinAux (key : Nat → ℚ) : Nat → List Nat → Nat
  | b, [] => b
  | b, i :: rest => if key i < key b then pyMinAux key i rest else pyMinAux key b rest

/-- Python's builtin `min(seq, key = key)`: `none` (a `ValueError`) on an empty
sequence, otherwise the first element attaining the minimal key. -/
def pyMin (key : Nat → ℚ) : List Nat → Option Nat
  | [] => none
  | i :: rest => some (pyMinAux key i rest)

/-- One iteration of the `greedy` loop body (source lines 184-185): pick the
machine minimizing `cost(machine, job) + loadOf(machine)` with Python's `min`
over `range(Mechines)`, then commit the assignment with `scedual`. -/
def greedyStep (cm : CostMatrix) (a : Asg) (job : Nat) : Except String Asg :=
  match pyMin (fun m => cm.c m job + loadOf cm a m) (List.range cm.M) with
  | none => Except.error "min() arg is an empty sequence"
  | some m =>
    match scedual cm a m job with
    | (Except.error e, _) => Except.error e
    | (Except.ok _, a2) => Except.ok a2

/-- The greedy assigner `greedy(output)` (source lines 141-185): processes the
jobs in column order `0 .. Jobs-1`, threading the schedule state; a raised
exception aborts the loop. -/
def greedy (cm : CostMatrix) (a : Asg) : Except String Asg :=
  (objects cm).foldlM (greedyStep cm) a

/-- Claim C6: for every schedule state and valid (machine, job) pair, the
assign operation raises the duplicate-assignment error exactly when the cell is
already `true`, and otherwise succeeds and sets the cell to `true`. -/
theorem c6_assign_duplicate (cm : CostMatrix) (a : Asg) (m j : Nat)
    (hm : m < cm.M) (hj : j < cm.J) :
    (a m j = true → scedual cm a m j = (Except.error "assignment already scedualed", a)) ∧
    (a m j = false → scedual cm a m j = (Except.ok (), setCell a m j) ∧
      setCell a m j m j = true) := by
  constructor
  · intro h
    simp [scedual, hm, hj, h]
  · intro h
    exact ⟨by simp [scedual, hm, hj, h], by simp [setCell]⟩

/-- Concrete instance of the previous theorem: a 1-by-2 matrix with cell (0,0)
assigned; assigning (0,0) again fails and leaves the matrix, assigning (0,1)
sets the cell. -/
def cmW6 : CostMatrix := ⟨1, 2, fun _ _ => 1⟩

/-- A concrete assignment matrix with exactly cell (0,0) set. -/
def aW6 : Asg := fun m j => decide (m = 0 ∧ j = 0)

theorem c6_assign_witness :
    scedual cmW6 aW6 0 0 = (Except.error "assignment already scedualed", aW6) ∧
    setCell aW6 0 1 0 1 = true :=
  ⟨(c6_assign_duplicate cmW6 aW6 0 0 (by decide) (by decide)).1 (by decide),
   ((c6_assign_duplicate cmW6 aW6 0 1 (by decide) (by decide)).2 (by decide)).2⟩

/-- Claim C10: the assign operation is atomic on failure: on a duplicate
assignment the returned matrix is exactly the input matrix (the duplicate
check precedes the mutation in the source). -/
theorem c10_assign_atomic (cm : CostMatrix) (a : Asg) (m j : Nat)
    (hm : m < cm.M) (hj : j < cm.J) (hdup : a m j = true) :
    (scedual cm a m j).2 = a := by
  simp [scedual, hm, hj, hdup]

theorem c10_assign_atomic_witness : (scedual cmW6 aW6 0 0).2 = aW6 :=
  c10_assign_atomic cmW6 aW6 0 0 (by decide) (by decide) (by decide)

/-- Every element of the base-or-list is at most the left fold of `max`. -/
theorem foldl_max_ge (xs : List ℚ) : ∀ x y : ℚ, y = x ∨ y ∈ xs → y ≤ xs.foldl max x := by
  induction xs with
  | nil =>
    intro x y h
    rcases h with h | h
    · simp [h]
    · cases h
  | cons z zs ih =>
    intro x y h
    rcases h with h | h
    · subst h
      exact le_trans (le_max_left y z) (ih (max y z) (max y z) (Or.inl rfl))
    · rcases List.mem_cons.mp h with h | h
      · subst h
        exact le_trans (le_max_right x y) (ih (max x y) (max x y) (Or.inl rfl))
      · exact ih (max x z) y (Or.inr h)

/-- The left fold of `max` is the base or one of the list elements. -/
theorem foldl_max_mem (xs : List ℚ) : ∀ x : ℚ, xs.foldl max x = x ∨ xs.foldl max x ∈ xs := by
  induction xs with
  | nil =>
    intro x
    exact Or.inl rfl
  | cons z zs ih =>
    intro x
    rcases ih (max x z) with h | h
    · rcases max_choice x z with hc | hc
      · exact Or.inl (by rw [List.foldl_cons, h, hc])
      · exact Or.inr (by rw [List.foldl_cons, h, hc]; exact List.mem_cons_self z zs)
    · exact Or.inr (List.mem_cons_of_mem z h)

/-- Claim C8: with at least one machine, `extract_result` of the makespan
variant returns the maximum machine load (the load of some machine, at least
every machine's load), and with no assignment at all it returns 0. -/
theorem c8_makespan_max_load (cm : CostMatrix) (a : Asg) (hM : 0 < cm.M) :
    (∃ m, m < cm.M ∧ extract_result cm a = some (loadOf cm a m) ∧
      ∀ m', m' < cm.M → loadOf cm a m' ≤ loadOf cm a m) ∧
    ((∀ m j, m < cm.M → j < cm.J → a m j = false) → extract_result cm a = some 0) := by
  have hag : agents cm = List.range cm.M := rfl
  have hne : agents cm ≠ [] := by
    rw [hag]
    simp [List.range_eq_nil]
    omega
  obtain ⟨b, rest, hbr⟩ := List.exists_cons_of_ne_nil hne
  have hextract : extract_result cm a = pyMax ((agents cm).map (loadOf cm a)) := rfl
  constructor
  · rw [hextract, hbr]
    simp only [List.map_cons, pyMax]
    set v := (rest.map (loadOf cm a)).foldl max (loadOf cm a b) with hv
    have hmem : v = loadOf cm a b ∨ v ∈ rest.map (loadOf cm a) :=
      foldl_max_mem (rest.map (loadOf cm a)) (loadOf cm a b)
    have hvm : ∃ m, m < cm.M ∧ v = loadOf cm a m := by
      rcases hmem with h | h
      · refine ⟨b, ?_, h⟩
        have : b ∈ agents cm := by
          rw [hbr]
          exact List.mem_cons_self b rest
        rw [hag] at this
        exact List.mem_range.mp this
      · obtain ⟨m, hm1, hm2⟩ := List.mem_map.mp h
        refine ⟨m, ?_, hm2.symm⟩
        have : m ∈ agents cm := by
          rw [hbr]
          exact List.mem_cons_of_mem b hm1
        rw [hag] at this
        exact List.mem_range.mp this
    obtain ⟨m, hm, hvm⟩ := hvm
    refine ⟨m, hm, by rw [hvm], ?_⟩
    intro m' hm'
    rw [← hvm]
    have hmem' : m' ∈ agents cm := by
      rw [hag]
      exact List.mem_range.mpr hm'
    rw [hbr] at hmem'
    rcases List.mem_cons.mp hmem' with h | h
    · exact foldl_max_ge _ _ _ (Or.inl (by rw [h]))
    · exact foldl_max_ge _ _ _ (Or.inr (List.mem_map_of_mem (loadOf cm a) h))
  · intro hfalse
    have hzero : ∀ m, m ∈ agents cm → loadOf cm a m = 0 := by
      intro m hm
      rw [hag] at hm
      have hmM := List.mem_range.mp hm
      have hfil : (objects cm).filter (fun j => a m j) = [] := by
        apply List.filter_eq_nil_iff.mpr
        intro j hj
        have hjJ := List.mem_range.mp hj
        simp [hfalse m j hmM hjJ]
      simp [loadOf, hfil]
    rw [hextract, hbr]
    simp only [List.map_cons, pyMax]
    have hb0 : loadOf cm a b = 0 := hzero b (by rw [hbr]; exact List.mem_cons_self b rest)
    have hall : ∀ y ∈ rest.map (loadOf cm a), y = 0 := by
      intro y hy
      obtain ⟨m, hm1, hm2⟩ := List.mem_map.mp hy
      rw [← hm2]
      exact hzero m (by rw [hbr]; exact List.mem_cons_of_mem b hm1)
    rcases foldl_max_mem (rest.map (loadOf cm a)) (loadOf cm a b) with h | h
    · rw [h, hb0]
    · rw [hall _ h]

/-- Concrete instance of claim C8: extracted makespan of the empty assignment
on a 1-by-1 matrix is 0. -/
theorem c8_makespan_witness : extract_result ⟨1, 1, fun _ _ => 5⟩ emptyAsg = some 0 :=
  (c8_makespan_max_load ⟨1, 1, fun _ _ => 5⟩ emptyAsg (by decide)).2
    (fun _ _ _ _ => rfl)

/-- The result of the `min` accumulator loop is the base or a list element. -/
theorem pyMinAux_mem (key : Nat → ℚ) : ∀ (l : List Nat) (b : Nat),
    pyMinAux key b l = b ∨ pyMinAux key b l ∈ l := by
  intro l
  induction l with
  | nil =>
    intro b
    exact Or.inl rfl
  | cons i rest ih =>
    intro b
    by_cases h : key i < key b
    · simp only [pyMinAux, if_pos h]
      rcases ih i with h2 | h2
      · exact Or.inr (by rw [h2]; exact List.mem_cons_self i rest)
      · exact Or.inr (List.mem_cons_of_mem i h2)
    · simp only [pyMinAux, if_neg h]
      rcases ih b with h2 | h2
      · exact Or.inl h2
      · exact Or.inr (List.mem_cons_of_mem i h2)

/-- The result of the `min` accumulator loop has a key no larger than the base
key and than every list element's key. -/
theorem pyMinAux_le (key : Nat → ℚ) : ∀ (l : List Nat) (b : Nat),
    key (pyMinAux key b l) ≤ key b ∧ ∀ i ∈ l, key (pyMinAux key b l) ≤ key i := by
  intro l
  induction l with
  | nil =>
    intro b
    exact ⟨le_refl _, by intro i h; cases h⟩
  | cons i rest ih =>
    intro b
    by_cases h : key i < key b
    · simp only [pyMinAux, if_pos h]
      obtain ⟨h1, h2⟩ := ih i
      refine ⟨le_trans h1 (le_of_lt h), ?_⟩
      intro x hx
      rcases List.mem_cons.mp hx with hx | hx
      · rw [hx]
        exact h1
      · exact h2 x hx
    · simp only [pyMinAux, if_neg h]
      obtain ⟨h1, h2⟩ := ih b
      refine ⟨h1, ?_⟩
      intro x hx
      rcases List.mem_cons.mp hx with hx | hx
      · rw [hx]
        exact le_trans h1 (not_lt.mp h)
      · exact h2 x hx

/-- If the `min` accumulator loop moved away from the base, the key strictly
improved (the running best is replaced only on a strictly smaller key). -/
theorem pyMinAux_ne_lt (key : Nat → ℚ) : ∀ (l : List Nat) (b : Nat),
    pyMinAux key b l ≠ b → key (pyMinAux key b l) < key b := by
  intro l
  induction l with
  | nil =>
    intro b h
    exact absurd rfl h
  | cons i rest ih =>
    intro b h
    by_cases hc : key i < key b
    · simp only [pyMinAux, if_pos hc] at h ⊢
      exact lt_of_le_of_lt (pyMinAux_le key rest i).1 hc
    · simp only [pyMinAux, if_neg hc] at h ⊢
      exact ih b h

/-- First-minimizer property of Python's `min` over a strictly increasing
index list: every index smaller than the returned one has a strictly larger
key (ties are broken towards the smaller index). -/
theorem pyMinAux_first (key : Nat → ℚ) : ∀ (l : List Nat) (b : Nat),
    (b :: l).Pairwise (· < ·) →
    ∀ i, (i = b ∨ i ∈ l) → i < pyMinAux key b l → key (pyMinAux key b l) < key i := by
  intro l
  induction l with
  | nil =>
    intro b _ i hi hlt
    rcases hi with hi | hi
    · subst hi
      simp only [pyMinAux] at hlt
      exact absurd hlt (lt_irrefl _)
    · cases hi
  | cons z rest ih =>
    intro b hpw i hi hlt
    have hbz : b < z := (List.pairwise_cons.mp hpw).1 z (List.mem_cons_self z rest)
    have hpw2 : (z :: rest).Pairwise (· < ·) := (List.pairwise_cons.mp hpw).2
    by_cases hc : key z < key b
    · simp only [pyMinAux, if_pos hc] at hlt ⊢
      rcases hi with hi | hi
      · subst hi
        exact lt_of_le_of_lt (pyMinAux_le key rest z).1 hc
      · exact ih z hpw2 i (List.mem_cons.mp hi) hlt
    · simp only [pyMinAux, if_neg hc] at hlt ⊢
      have hpw3 : (b :: rest).Pairwise (· < ·) := by
        rcases List.pairwise_cons.mp hpw with ⟨hb, hzr⟩
        rcases List.pairwise_cons.mp hzr with ⟨_, hr⟩
        exact List.pairwise_cons.mpr ⟨fun x hx => hb x (List.mem_cons_of_mem z hx), hr⟩
      rcases hi with hi | hi
      · rw [hi] at hlt ⊢
        exact ih b hpw3 b (Or.inl rfl) hlt
      · rcases List.mem_cons.mp hi with hi | hi
        · subst hi
          have hne : pyMinAux key b rest ≠ b := by
            intro heq
            rw [heq] at hlt
            omega
          exact lt_of_lt_of_le (pyMinAux_ne_lt key rest b hne) (not_lt.mp hc)
        · exact ih b hpw3 i (Or.inr hi) hlt

/-- The concrete cost matrix `[[1,2,5],[2,2,1],[2,3,5]]` from the greedy
doctest (3 machines, 3 jobs). -/
def cm5 : CostMatrix :=
  ⟨3, 3, fun m j => ((([[1,2,5],[2,2,1],[2,3,5]] : List (List ℚ)).getD m []).getD j 0)⟩

/-- Claim C5: the greedy assigner's per-job choice (Python `min` over
`range(Mechines)` keyed by `cost + current load`) is a machine of minimal key
and, among the minimizers, the one of lowest index; and on the cost matrix
`[[1,2,5],[2,2,1],[2,3,5]]` the greedy makespan is 3. -/
theorem c5_greedy_argmin_and_makespan :
    (∀ (cm : CostMatrix) (a : Asg) (j m : Nat),
        pyMin (fun mm => cm.c mm j + loadOf cm a mm) (List.range cm.M) = some m →
        m < cm.M ∧
        (∀ i, i < cm.M → cm.c m j + loadOf cm a m ≤ cm.c i j + loadOf cm a i) ∧
        (∀ i, i < m → cm.c m j + loadOf cm a m < cm.c i j + loadOf cm a i)) ∧
    (greedy cm5 emptyAsg).toOption.map (extract_result cm5) = some (some 3) := by
  constructor
  · intro cm a j m hmin
    set key := fun mm => cm.c mm j + loadOf cm a mm with hkey
    cases hR : List.range cm.M with
    | nil =>
      rw [hR] at hmin
      simp [pyMin] at hmin
    | cons b rest =>
      rw [hR] at hmin
      simp only [pyMin, Option.some_inj] at hmin
      have hmem : m ∈ List.range cm.M := by
        rw [hR]
        rcases pyMinAux_mem key rest b with h | h
        · rw [← hmin, h]
          exact List.mem_cons_self b rest
        · rw [← hmin]
          exact List.mem_cons_of_mem b h
      have hmM : m < cm.M := List.mem_range.mp hmem
      have hpw : (b :: rest).Pairwise (· < ·) := by
        rw [← hR]
        exact List.pairwise_lt_range cm.M
      refine ⟨hmM, ?_, ?_⟩
      · intro i hi
        have himem : i ∈ List.range cm.M := List.mem_range.mpr hi
        rw [hR] at himem
        rcases List.mem_cons.mp himem with h | h
        · rw [← hmin, h]
          exact (pyMinAux_le key rest b).1
        · rw [← hmin]
          exact (pyMinAux_le key rest b).2 i h
      · intro i hi
        have himem : i ∈ List.range cm.M := List.mem_range.mpr (lt_trans hi hmM)
        rw [hR] at himem
        rw [← hmin]
        exact pyMinAux_first key rest b hpw i (List.mem_cons.mp himem) (by rw [hmin]; exact hi)
  · with_unfolding_all rfl

/-- Concrete instance of the first half of the previous theorem: on `cm5`,
job 0 on the empty schedule, the chosen machine 0 minimizes the key and has no
smaller competitor. -/
theorem c5_greedy_witness :
    0 < cm5.M ∧
    (∀ i, i < cm5.M → cm5.c 0 0 + loadOf cm5 emptyAsg 0 ≤ cm5.c i 0 + loadOf cm5 emptyAsg i) ∧
    (∀ i, i < 0 → cm5.c 0 0 + loadOf cm5 emptyAsg 0 < cm5.c i 0 + loadOf cm5 emptyAsg i) :=
  c5_greedy_argmin_and_makespan.1 cm5 emptyAsg 0 0 (by with_unfolding_all decide)

/-- Machines eligible for job `j` at bound `B`: the mask
`output.costs[:, job] <= apprx_bound` (source line 247). -/
def eligibleMachines (cm : CostMatrix) (B : ℚ) (j : Nat) : List Nat :=
  (agents cm).filter (fun m => decide (cm.c m j ≤ B))

/-- Jobs machine `m` can do within the bound: the mask
`output.costs[mechine, :] <= apprx_bound` (source line 256). -/
def eligibleJobs (cm : CostMatrix) (B : ℚ) (m : Nat) : List Nat :=
  (objects cm).filter (fun j => decide (cm.c m j ≤ B))

/-- Raw (unweighted) row sum of the LP variable matrix over all jobs:
`cp.sum(variables[mechine, :])` (source line 262). -/
def rowSum (cm : CostMatrix) (x : Nat → Nat → ℚ) (m : Nat) : ℚ :=
  ((objects cm).map (fun j => x m j)).sum

/-- Number of strictly non-zero variable entries; the source bounds it through
the boolean `actives` matrix (source lines 238-240). -/
def nonzeroCount (cm : CostMatrix) (x : Nat → Nat → ℚ) : Nat :=
  ((pairsOf cm).filter (fun p => decide (x p.1 p.2 ≠ 0))).length

/-- Job-coverage constraints of the LP (source line 249): for every job, the
variables of its eligible machines sum to exactly 1. -/
def jobCoverOk (cm : CostMatrix) (B : ℚ) (x : Nat → Nat → ℚ) : Bool :=
  (objects cm).all (fun j =>
    decide (((eligibleMachines cm B j).map (fun m => x m j)).sum = 1))

/-- Machine-load constraints exactly as the source builds them (line 258): for
every machine with a non-empty eligible job set, the UNWEIGHTED sum of its
eligible variables is at most the bound -- the source constrains
`cp.sum(variables[mechine, :][mask]) <= apprx_bound`; the processing costs do
not appear as coefficients. -/
def machineConsOk (cm : CostMatrix) (B : ℚ) (x : Nat → Nat → ℚ) : Bool :=
  (agents cm).all (fun m =>
    (eligibleJobs cm B m).isEmpty ||
      decide (((eligibleJobs cm B m).map (fun j => x m j)).sum ≤ B))

/-- Modelled from the spec: the load-bound constraint as the specification
states it -- for every machine, the sum over its eligible jobs of
`cost(m, j) * x[m][j]` is at most `B`.  This definition follows the spec's
words and exists only to be compared against `machineConsOk`, the constraint
the source actually builds. -/
def specMachineConsOk (cm : CostMatrix) (B : ℚ) (x : Nat → Nat → ℚ) : Bool :=
  (agents cm).all (fun m =>
    (eligibleJobs cm B m).isEmpty ||
      decide (((eligibleJobs cm B m).map (fun j => cm.c m j * x m j)).sum ≤ B))

/-- Variable bounds of the LP: `variables >= 0` (line 236) and, through the
boolean matrix constraint `actives >= variables` (line 239), each variable at
most 1. -/
def boundsOk (cm : CostMatrix) (x : Nat → Nat → ℚ) : Bool :=
  (pairsOf cm).all (fun p => decide (0 ≤ x p.1 p.2 ∧ x p.1 p.2 ≤ 1))

/-- The makespan expression of the LP and its bound (lines 261-263): every
machine's raw row sum (over ALL jobs, unmasked and unweighted) is at most the
bound. -/
def makespanConsOk (cm : CostMatrix) (B : ℚ) (x : Nat → Nat → ℚ) : Bool :=
  (agents cm).all (fun m => decide (rowSum cm x m ≤ B))

/-- Conjunction of all constraints of the LP the source builds at bound `B`
(source lines 234-263): any solution the solver reports `optimal` satisfies
these.  The boolean `actives` matrix is eliminated: its existence is
equivalent to the 0-1 variable bounds together with the support bound
`Jobs + Mechines` on the number of non-zero entries. -/
def codeLPok (cm : CostMatrix) (B : ℚ) (x : Nat → Nat → ℚ) : Bool :=
  boundsOk cm x && decide (nonzeroCount cm x ≤ cm.J + cm.M) &&
    jobCoverOk cm B x && machineConsOk cm B x && makespanConsOk cm B x

/-- Objective value of the LP (line 262): the maximum raw row sum. -/
def codeLPobj (cm : CostMatrix) (x : Nat → Nat → ℚ) : Option ℚ :=
  pyMax ((agents cm).map (rowSum cm x))

/-- Optimality of a solution of the LP the source builds: feasible, and of
minimal objective value among all feasible solutions. -/
def codeLPoptimal (cm : CostMatrix) (B : ℚ) (x : Nat → Nat → ℚ) : Prop :=
  codeLPok cm B x = true ∧
    ∀ y v w, codeLPok cm B y = true →
      codeLPobj cm x = some v → codeLPobj cm y = some w → v ≤ w

/-- A 1-machine, 2-job cost matrix with both costs 2: the failing input of
claim C2. -/
def cmC2 : CostMatrix := ⟨1, 2, fun _ _ => 2⟩

/-- The all-ones candidate LP solution used against `cmC2`. -/
def xC2 : Nat → Nat → ℚ := fun _ _ => 1

/-- Claim C2 (refuted; code bug): the machine constraint the source builds at
bound 3 on the cost matrix `[[2, 2]]` ACCEPTS the all-ones solution, although
its cost-weighted machine load is 4 > 3; the constraint the claim (and the
source's own comment about "processing time") describes rejects it.  The
constraint coefficients in the code are all ones, not the processing costs. -/
theorem c2_machine_constraint_unweighted :
    machineConsOk cmC2 3 xC2 = true ∧
    specMachineConsOk cmC2 3 xC2 = false ∧
    ((eligibleJobs cmC2 3 0).map (fun j => cmC2.c 0 j * xC2 0 j)).sum = 4 ∧
    codeLPok cmC2 3 xC2 =
      (boundsOk cmC2 xC2 && decide (nonzeroCount cmC2 xC2 ≤ cmC2.J + cmC2.M) &&
        jobCoverOk cmC2 3 xC2 && machineConsOk cmC2 3 xC2 && makespanConsOk cmC2 3 xC2) := by
  refine ⟨?_, ?_, ?_, rfl⟩ <;> with_unfolding_all decide

/-- Nodes of the rounding graph: the machine and job node names the source
builds as strings (`M`+str(i) and `J`+str(i), source lines 285-286). -/
inductive GNode where
  | Mn : Nat → GNode
  | Jn : Nat → GNode
deriving DecidableEq

/-- Endpoint nodes occurring in an edge list, without repetitions. -/
def gnodes (es : List (GNode × GNode)) : List GNode :=
  (es.map Prod.fst ++ es.map Prod.snd).dedup

/-- A node subset splits the edges properly when every edge has exactly one
endpoint inside it (a proper 2-coloring). -/
def properSplit (es : List (GNode × GNode)) (s : List GNode) : Bool :=
  es.all (fun e => decide (e.1 ∈ s) != decide (e.2 ∈ s))

/-- 2-colorability of the edge list: what `nx.bipartite.is_bipartite(G)`
checks at source line 304, here by exhaustive search over node subsets. -/
def isBipartiteB (es : List (GNode × GNode)) : Bool :=
  (gnodes es).sublists.any (fun s => properSplit es s)

/-- The edges of the rounding graph as they stand at the bipartiteness check:
the pairs with strictly positive fractional value (source lines 290-294) minus
the value-1 edges removed while adopting integral assignments (source lines
297-301) -- i.e. the pairs whose fractional value is positive and not 1. -/
def remainingGraph (cm : CostMatrix) (x : Nat → Nat → ℚ) : List (GNode × GNode) :=
  ((pairsOf cm).filter (fun p => decide (0 < x p.1 p.2 ∧ x p.1 p.2 ≠ 1))).map
    (fun p => (GNode.Mn p.1, GNode.Jn p.2))

/-- One step of the integral-adoption loop (source lines 297-300): commit the
pair when its fractional value is exactly 1, propagating a raised exception. -/
def commitStep (cm : CostMatrix) (x : Nat → Nat → ℚ) (a : Asg) (p : Nat × Nat) :
    Except String Asg :=
  if x p.1 p.2 = 1 then
    match scedual cm a p.1 p.2 with
    | (Except.error e, _) => Except.error e
    | (Except.ok _, a2) => Except.ok a2
  else Except.ok a

/-- The integral-adoption loop of `Round` over all (machine, job) pairs in
iteration order (source lines 297-301). -/
def commitIntegral (cm : CostMatrix) (x : Nat → Nat → ℚ) (a : Asg) : Except String Asg :=
  (pairsOf cm).foldlM (commitStep cm x) a

/-- The part of `Round` from the bipartiteness check onward (source lines
304-312), parametric in the edge list it runs on.  A graph failing the check
raises the `RuntimeError` and aborts before any matching-based assignment.
Otherwise, any remaining edge puts at least two nodes into some connected
component, so the matching loop runs; iterating the matching dict unpacks a
node-name string (such as `M0`) into its characters and parses one of them as
an index, which raises -- hence the phase completes only when no edge remains,
and then commits nothing further. -/
def roundMatchPhase (a : Asg) (es : List (GNode × GNode)) : Except String Asg :=
  if isBipartiteB es then
    if es.isEmpty then Except.ok a
    else Except.error "string index out of range"
  else Except.error "G[fractional solution] should be bipartite"

/-- `Round(output, fractional_sol)` (source lines 276-312): adopt all value-1
entries as integral assignments, then run the matching phase on the remaining
strictly-fractional edges. -/
def Round (cm : CostMatrix) (x : Nat → Nat → ℚ) (a : Asg) : Except String Asg :=
  match commitIntegral cm x a with
  | Except.error e => Except.error e
  | Except.ok a2 => roundMatchPhase a2 (remainingGraph cm x)

/-- Claim C7: if the rounding graph fails the bipartiteness check, the rounder
raises the fatal `RuntimeError` and never returns a schedule state -- no
matching-based assignment is committed from a non-bipartite graph. -/
theorem c7_nonbipartite_abort (a : Asg) (es : List (GNode × GNode))
    (h : isBipartiteB es = false) :
    roundMatchPhase a es = Except.error "G[fractional solution] should be bipartite" ∧
    ∀ a2, roundMatchPhase a es ≠ Except.ok a2 := by
  have he : roundMatchPhase a es =
      Except.error "G[fractional solution] should be bipartite" := by
    simp [roundMatchPhase, h]
  refine ⟨he, ?_⟩
  intro a2 hc
  rw [he] at hc
  cases hc

/-- An odd cycle on three machine nodes: a concrete non-bipartite edge list. -/
def triangleEdges : List (GNode × GNode) :=
  [(GNode.Mn 0, GNode.Mn 1), (GNode.Mn 1, GNode.Mn 2), (GNode.Mn 2, GNode.Mn 0)]

theorem c7_nonbipartite_witness :
    roundMatchPhase emptyAsg triangleEdges =
      Except.error "G[fractional solution] should be bipartite" :=
  (c7_nonbipartite_abort emptyAsg triangleEdges (by decide)).1

/-- The state of the binary search in `apprx` (source lines 205-226): the two
bounds together with the schedule state being mutated. -/
structure SState where
  lower : ℚ
  upper : ℚ
  asg : Asg

/-- One call `LinearProgram(output, apprx_bound)` (source lines 230-272): if
some job has no eligible machine, the call returns False before solving
(line 250); otherwise the external solver runs -- `none` models a non-`optimal`
status, i.e. returning False (line 269); a solution models status `optimal`,
after which the schedule state is cleared (line 270) and `Round` runs on it
(line 271).  A `True` outcome carries the schedule state `Round` produced; an
exception from `Round` propagates. -/
def LinearProgram (cm : CostMatrix) (oracle : ℚ → Option (Nat → Nat → ℚ)) (B : ℚ) :
    Except String (Option Asg) :=
  if (objects cm).all (fun j => !(eligibleMachines cm B j).isEmpty) then
    match oracle B with
    | none => Except.ok none
    | some x =>
      match Round cm x emptyAsg with
      | Except.error e => Except.error e
      | Except.ok a2 => Except.ok (some a2)
  else Except.ok none

/-- One iteration of the `while lower <= upper` loop of `apprx` (source lines
219-226): `middle = (upper + lower) / 2` is computed, but the oracle is
invoked at `upper` (line 223 reads `LinearProgram(output, upper)`); on False
`lower` becomes `middle + 0.0001`, on True `upper` becomes `middle - 0.0001`
and the carried schedule state is the one `Round` produced.  A state with
`lower > upper` is returned unchanged (the loop has ended), and a raised
exception stays raised. -/
def apprxStep (cm : CostMatrix) (oracle : ℚ → Option (Nat → Nat → ℚ)) :
    Except String SState → Except String SState
  | Except.error e => Except.error e
  | Except.ok s =>
    if s.lower ≤ s.upper then
      match LinearProgram cm oracle s.upper with
      | Except.error e => Except.error e
      | Except.ok none => Except.ok ⟨(s.upper + s.lower) / 2 + 1/10000, s.upper, s.asg⟩
      | Except.ok (some a2) => Except.ok ⟨s.lower, (s.upper + s.lower) / 2 - 1/10000, a2⟩
    else Except.ok s

/-- Initialization of `apprx` (source lines 205-215): a greedy run on a fresh
state gives `upper`, then `lower = upper / Mechines`; the driver's own
schedule state `a0` (all clear in a run driven by `MinMakespan`) is carried
untouched into the loop. -/
def apprxInit (cm : CostMatrix) (a0 : Asg) : Except String SState :=
  match greedy cm emptyAsg with
  | Except.error e => Except.error e
  | Except.ok g =>
    match extract_result cm g with
    | none => Except.error "max() arg is an empty sequence"
    | some u => Except.ok ⟨u / (cm.M : ℚ), u, a0⟩

/-- The loop has ended: either an exception aborted the run or the loop
condition `lower <= upper` fails. -/
def stoppedB : Except String SState → Bool
  | Except.error _ => true
  | Except.ok s => !(decide (s.lower ≤ s.upper))

/-- The bounds of a search state, when the run has not raised. -/
def boundsView (e : Except String SState) : Option (ℚ × ℚ) :=
  e.toOption.map (fun s => (s.lower, s.upper))

/-- The column count of a job in the schedule state carried by the run. -/
def colView (cm : CostMatrix) (e : Except String SState) (j : Nat) : Option Nat :=
  e.toOption.map (fun s => colCount cm s.asg j)

/-- The extracted makespan of the schedule state carried by the run. -/
def makespanView (cm : CostMatrix) (e : Except String SState) : Option (Option ℚ) :=
  e.toOption.map (fun s => extract_result cm s.asg)

/-- A 2-machine, 3-job all-ones cost matrix (greedy makespan 2, so the search
starts at `lower = 1`, `upper = 2`, first midpoint 3/2). -/
def cm1 : CostMatrix := ⟨2, 3, fun _ _ => 1⟩

/-- A fractional solution feasible for the LP of `cm1` at bound 3/2. -/
def x1 : Nat → Nat → ℚ := fun m j =>
  if m = 0 ∧ j = 0 then 1
  else if m = 0 ∧ j = 1 then 1/2
  else if m = 1 ∧ j = 1 then 1/2
  else if m = 1 ∧ j = 2 then 1 else 0

/-- A solver that reports feasible exactly at the midpoint 3/2 of the first
iteration and infeasible everywhere else. -/
def oracle1 : ℚ → Option (Nat → Nat → ℚ) := fun b => if b = 3/2 then some x1 else none

/-- A schedule state with exactly the cell (0,0) set, to observe clearing. -/
def a01 : Asg := fun m j => decide (m = 0 ∧ j = 0)

/-- Claim C1 is refuted on this concrete run: the first iteration starts at
`(lower, upper) = (1, 2)` with midpoint 3/2; the solver is feasible at 3/2
(a feasible solution exists there and every job has an eligible machine
there), yet the iteration takes the INFEASIBLE branch (`lower` moves up,
`upper` stays) and the schedule state survives un-cleared -- because the
source invokes `LinearProgram(output, upper)` at `upper = 2`, not at the
midpoint, and clears the state only inside a successful oracle call. -/
theorem c1_counterexample :
    boundsView (apprxInit cm1 a01) = some (1, 2) ∧
    (oracle1 ((2 + 1) / 2)).isSome = true ∧
    codeLPok cm1 ((2 + 1) / 2) x1 = true ∧
    ((objects cm1).all (fun j => !(eligibleMachines cm1 ((2 + 1) / 2) j).isEmpty)) = true ∧
    LinearProgram cm1 oracle1 2 = Except.ok none ∧
    boundsView (apprxStep cm1 oracle1 (apprxInit cm1 a01)) = some (3/2 + 1/10000, 2) ∧
    colView cm1 (apprxStep cm1 oracle1 (apprxInit cm1 a01)) 0 = some 1 := by
  refine ⟨?_, ?_, ?_, ?_, ?_, ?_, ?_⟩ <;> with_unfolding_all rfl

/-- Claim C1 amended: in every iteration entered with `lower ≤ upper`, the
oracle is invoked at the CURRENT UPPER BOUND (the computed midpoint is used
only for the updates), and the schedule state is not cleared by the driver:
on an infeasible verdict it is carried unchanged, on a feasible verdict it is
replaced by the state the oracle's clear-and-round produced. -/
theorem c1_amended (cm : CostMatrix) (oracle : ℚ → Option (Nat → Nat → ℚ)) (s : SState)
    (h : s.lower ≤ s.upper) :
    (LinearProgram cm oracle s.upper = Except.ok none →
      apprxStep cm oracle (Except.ok s) =
        Except.ok ⟨(s.upper + s.lower) / 2 + 1/10000, s.upper, s.asg⟩) ∧
    (∀ a2, LinearProgram cm oracle s.upper = Except.ok (some a2) →
      apprxStep cm oracle (Except.ok s) =
        Except.ok ⟨s.lower, (s.upper + s.lower) / 2 - 1/10000, a2⟩) := by
  constructor
  · intro hlp
    simp [apprxStep, h, hlp]
  · intro a2 hlp
    simp [apprxStep, h, hlp]

theorem c1_amended_witness :
    apprxStep cm1 (fun _ => none) (Except.ok ⟨1, 2, emptyAsg⟩) =
      Except.ok ⟨(2 + 1) / 2 + 1/10000, 2, emptyAsg⟩ :=
  (c1_amended cm1 (fun _ => none) ⟨1, 2, emptyAsg⟩ (by with_unfolding_all decide)).1
    (by with_unfolding_all rfl)

/-- The always-infeasible solver: no candidate bound is ever reported
feasible. -/
def oracleNone : ℚ → Option (Nat → Nat → ℚ) := fun _ => none

/-- Claim C4 is refuted on this concrete run: on the cost matrix
`[[1,2,5],[2,2,1],[2,3,5]]` with a solver that never reports feasible, the
binary search runs to completion (25 iterations are more than enough) and the
driver's schedule state is still empty -- extracted makespan 0 -- while the
greedy assigner's own result is makespan 3.  The greedy result is NOT the
fallback: the driver never copies it into the output state. -/
theorem c4_counterexample :
    stoppedB ((apprxStep cm5 oracleNone)^[25] (apprxInit cm5 emptyAsg)) = true ∧
    makespanView cm5 ((apprxStep cm5 oracleNone)^[25] (apprxInit cm5 emptyAsg)) =
      some (some 0) ∧
    (greedy cm5 emptyAsg).toOption.map (extract_result cm5) = some (some 3) ∧
    (some (some (0:ℚ)) : Option (Option ℚ)) ≠ some (some 3) := by
  refine ⟨?_, ?_, ?_, by with_unfolding_all decide⟩ <;> with_unfolding_all rfl

/-- Claim C4 amended: if no bound is ever reported feasible, the driver leaves
its schedule state exactly as it was at loop entry (the greedy solution is
computed only to seed the bounds and is never copied into the output); with
the all-clear state `MinMakespan` builds, the run therefore ends with the
empty assignment, not with the greedy result. -/
theorem c4_amended_fallback (cm : CostMatrix) (oracle : ℚ → Option (Nat → Nat → ℚ))
    (st : SState) (hor : ∀ b, oracle b = none) :
    ∀ n : Nat, ∃ l u, (apprxStep cm oracle)^[n] (Except.ok st) = Except.ok ⟨l, u, st.asg⟩ := by
  intro n
  induction n with
  | zero => exact ⟨st.lower, st.upper, rfl⟩
  | succ n ih =>
    obtain ⟨l, u, ih⟩ := ih
    rw [Function.iterate_succ_apply', ih]
    by_cases h : l ≤ u
    · have hlp : LinearProgram cm oracle u = Except.ok none := by
        unfold LinearProgram
        rw [hor u]
        split
        · rfl
        · rfl
      refine ⟨(u + l) / 2 + 1/10000, u, ?_⟩
      simp [apprxStep, h, hlp]
    · exact ⟨l, u, by simp [apprxStep, h]⟩

theorem c4_amended_fallback_witness :
    ∃ l u, (apprxStep cm5 oracleNone)^[2] (Except.ok ⟨1, 3, emptyAsg⟩) =
      Except.ok ⟨l, u, emptyAsg⟩ :=
  c4_amended_fallback cm5 oracleNone ⟨1, 3, emptyAsg⟩ (fun _ => rfl) 2

/-- Termination measure of the binary-search loop: the interval length in
units of the 0.0001 step (plus one), clamped to Nat. -/
def searchMeasure (s : SState) : Nat := (⌈(s.upper - s.lower) * 10000⌉ + 1).toNat

/-- An iteration entered with `lower ≤ upper` either raises, or yields a state
whose interval length is exactly half the old one minus the 0.0001 step. -/
theorem apprxStep_shrinks (cm : CostMatrix) (oracle : ℚ → Option (Nat → Nat → ℚ))
    (s : SState) (h : s.lower ≤ s.upper) :
    (∃ e, apprxStep cm oracle (Except.ok s) = Except.error e) ∨
    (∃ s2, apprxStep cm oracle (Except.ok s) = Except.ok s2 ∧
      s2.upper - s2.lower = (s.upper - s.lower) / 2 - 1/10000) := by
  simp only [apprxStep, if_pos h]
  cases hlp : LinearProgram cm oracle s.upper with
  | error e => exact Or.inl ⟨e, rfl⟩
  | ok o =>
    cases o with
    | none =>
      refine Or.inr ⟨_, rfl, ?_⟩
      show s.upper - ((s.upper + s.lower) / 2 + 1/10000) = (s.upper - s.lower) / 2 - 1/10000
      ring
    | some a2 =>
      refine Or.inr ⟨_, rfl, ?_⟩
      show ((s.upper + s.lower) / 2 - 1/10000) - s.lower = (s.upper - s.lower) / 2 - 1/10000
      ring

/-- The measure strictly drops across a non-raising iteration. -/
theorem searchMeasure_lt (s s2 : SState) (h : s.lower ≤ s.upper)
    (hlen : s2.upper - s2.lower = (s.upper - s.lower) / 2 - 1/10000) :
    searchMeasure s2 < searchMeasure s := by
  unfold searchMeasure
  have hL0 : 0 ≤ s.upper - s.lower := by linarith
  rw [hlen]
  have h1 : ((s.upper - s.lower) / 2 - 1/10000) * 10000 =
      (s.upper - s.lower) * 10000 / 2 - 1 := by ring
  rw [h1]
  have h2 : ⌈(s.upper - s.lower) * 10000 / 2 - 1⌉ =
      ⌈(s.upper - s.lower) * 10000 / 2⌉ - 1 := Int.ceil_sub_one _
  rw [h2]
  have h3 : ⌈(s.upper - s.lower) * 10000 / 2⌉ ≤ ⌈(s.upper - s.lower) * 10000⌉ :=
    Int.ceil_mono (by linarith)
  have h4 : 0 ≤ ⌈(s.upper - s.lower) * 10000⌉ :=
    Int.ceil_nonneg (by nlinarith)
  omega

/-- A state still inside the loop has positive measure. -/
theorem searchMeasure_pos (s : SState) (h : s.lower ≤ s.upper) : 1 ≤ searchMeasure s := by
  unfold searchMeasure
  have h4 : 0 ≤ ⌈(s.upper - s.lower) * 10000⌉ :=
    Int.ceil_nonneg (by nlinarith)
  omega

/-- Strong induction on the measure: from any state the loop reaches a stopped
configuration in finitely many iterations. -/
theorem loopTermAux (cm : CostMatrix) (oracle : ℚ → Option (Nat → Nat → ℚ)) :
    ∀ k : Nat, ∀ s : SState, searchMeasure s ≤ k →
      ∃ n, stoppedB ((apprxStep cm oracle)^[n] (Except.ok s)) = true := by
  intro k
  induction k with
  | zero =>
    intro s hs
    refine ⟨0, ?_⟩
    rw [Function.iterate_zero_apply]
    by_contra hc
    have hle : s.lower ≤ s.upper := by
      simp [stoppedB] at hc
      exact hc
    have := searchMeasure_pos s hle
    omega
  | succ k ih =>
    intro s hs
    by_cases h : s.lower ≤ s.upper
    · rcases apprxStep_shrinks cm oracle s h with ⟨e, he⟩ | ⟨s2, hs2, hlen⟩
      · refine ⟨1, ?_⟩
        rw [Function.iterate_one, he]
        rfl
      · have hm : searchMeasure s2 < searchMeasure s := searchMeasure_lt s s2 h hlen
        obtain ⟨n, hn⟩ := ih s2 (by omega)
        refine ⟨n + 1, ?_⟩
        rw [Function.iterate_succ_apply, hs2]
        exact hn
    · refine ⟨0, ?_⟩
      rw [Function.iterate_zero_apply]
      simp [stoppedB, h]

/-- Claim C9 amended, exact-arithmetic half: when the bound updates
`middle + 0.0001` and `middle - 0.0001` are carried out exactly (equivalently,
whenever the binary64 rounding of these updates is not absorbed), the
binary-search loop terminates for every cost matrix, every solver behavior and
every starting configuration: after finitely many iterations the loop
condition `lower ≤ upper` fails (or the run has raised, which also ends it),
since each entered iteration halves the interval length and shrinks it by at
least 0.0001.  In the program's binary64 arithmetic this fails at large
magnitudes: see the counterexample below built on `floatStepRel`. -/
theorem c9_loop_terminates (cm : CostMatrix) (oracle : ℚ → Option (Nat → Nat → ℚ))
    (e : Except String SState) :
    ∃ n : Nat, stoppedB ((apprxStep cm oracle)^[n] e) = true := by
  cases e with
  | error err => exact ⟨0, rfl⟩
  | ok s => exact loopTermAux cm oracle (searchMeasure s) s (le_refl _)

/-- Outcome analysis of the assign operation: it either succeeds, setting the
cell with all preconditions met, or raises and returns the matrix unchanged. -/
theorem scedual_cases (cm : CostMatrix) (a : Asg) (m j : Nat) :
    (scedual cm a m j = (Except.ok (), setCell a m j) ∧
      m < cm.M ∧ j < cm.J ∧ a m j = false) ∨
    (∃ e, scedual cm a m j = (Except.error e, a)) := by
  unfold scedual
  by_cases hb : m < cm.M ∧ j < cm.J
  · rw [if_pos hb]
    by_cases hc : a m j = true
    · rw [if_pos hc]
      exact Or.inr ⟨_, rfl⟩
    · have hc' : a m j = false := by
        cases hE : a m j
        · rfl
        · exact absurd hE hc
      rw [if_neg hc]
      exact Or.inl ⟨rfl, hb.1, hb.2, hc'⟩
  · rw [if_neg hb]
    exact Or.inr ⟨_, rfl⟩

/-- A successful commit step only adds assignments, and commits its own pair
whenever the fractional value is 1. -/
theorem commitStep_ok (cm : CostMatrix) (x : Nat → Nat → ℚ) (a a1 : Asg) (p : Nat × Nat)
    (h : commitStep cm x a p = Except.ok a1) :
    (∀ m j, a m j = true → a1 m j = true) ∧ (x p.1 p.2 = 1 → a1 p.1 p.2 = true) := by
  unfold commitStep at h
  by_cases hx : x p.1 p.2 = 1
  · rw [if_pos hx] at h
    rcases scedual_cases cm a p.1 p.2 with ⟨hs, _, _, _⟩ | ⟨e, hs⟩
    · rw [hs] at h
      have ha1 : setCell a p.1 p.2 = a1 := by
        injection h
      constructor
      · intro m j hmj
        rw [← ha1]
        unfold setCell
        by_cases hij : m = p.1 ∧ j = p.2
        · rw [if_pos hij]
        · rw [if_neg hij]
          exact hmj
      · intro _
        rw [← ha1]
        unfold setCell
        rw [if_pos ⟨rfl, rfl⟩]
    · rw [hs] at h
      cases h
  · rw [if_neg hx] at h
    have ha : a = a1 := by injection h
    subst ha
    exact ⟨fun m j hmj => hmj, fun hx1 => absurd hx1 hx⟩

/-- A successful run of the integral-adoption loop only adds assignments, and
commits every listed pair whose fractional value is 1. -/
theorem commit_fold (cm : CostMatrix) (x : Nat → Nat → ℚ) :
    ∀ (ps : List (Nat × Nat)) (a a2 : Asg),
      ps.foldlM (commitStep cm x) a = Except.ok a2 →
      (∀ m j, a m j = true → a2 m j = true) ∧
      (∀ p ∈ ps, x p.1 p.2 = 1 → a2 p.1 p.2 = true) := by
  intro ps
  induction ps with
  | nil =>
    intro a a2 hf
    simp only [List.foldlM_nil] at hf
    have : a = a2 := by injection hf
    subst this
    exact ⟨fun _ _ h => h, by intro p hp; cases hp⟩
  | cons p ps ih =>
    intro a a2 hf
    rw [List.foldlM_cons] at hf
    cases hcs : commitStep cm x a p with
    | error e =>
      rw [hcs] at hf
      have : (Except.error e : Except String Asg) >>= (fun a1 => ps.foldlM (commitStep cm x) a1) =
          Except.error e := rfl
      rw [this] at hf
      cases hf
    | ok a1 =>
      rw [hcs] at hf
      have hf' : ps.foldlM (commitStep cm x) a1 = Except.ok a2 := hf
      obtain ⟨hsm, hsc⟩ := commitStep_ok cm x a a1 p hcs
      obtain ⟨hmono, hcommit⟩ := ih a1 a2 hf'
      refine ⟨fun m j hmj => hmono m j (hsm m j hmj), ?_⟩
      intro q hq hx1
      rcases List.mem_cons.mp hq with hq | hq
      · subst hq
        exact hmono q.1 q.2 (hsc hx1)
      · exact hcommit q hq hx1

/-- A matching phase that returns normally returned its input state, on an
empty edge list. -/
theorem roundMatchPhase_ok (a a2 : Asg) (es : List (GNode × GNode))
    (h : roundMatchPhase a es = Except.ok a2) : a2 = a ∧ es = [] := by
  unfold roundMatchPhase at h
  by_cases hb : isBipartiteB es = true
  · rw [if_pos hb] at h
    by_cases he : es.isEmpty = true
    · rw [if_pos he] at h
      have : a = a2 := by injection h
      exact ⟨this.symm, List.isEmpty_iff.mp he⟩
    · rw [if_neg he] at h
      cases h
  · rw [if_neg hb] at h
    cases h

/-- A rounding run that completes did all its work in the integral-adoption
loop: the remaining-edge list was empty. -/
theorem Round_ok (cm : CostMatrix) (x : Nat → Nat → ℚ) (a a2 : Asg)
    (h : Round cm x a = Except.ok a2) :
    commitIntegral cm x a = Except.ok a2 ∧ remainingGraph cm x = [] := by
  unfold Round at h
  cases hci : commitIntegral cm x a with
  | error e =>
    rw [hci] at h
    cases h
  | ok a1 =>
    rw [hci] at h
    obtain ⟨ha, hes⟩ := roundMatchPhase_ok a1 a2 (remainingGraph cm x) h
    exact ⟨by rw [ha], hes⟩

/-- An empty remaining-edge list means no entry is strictly between 0 and 1
(nor above 1) on any valid pair. -/
theorem remainingGraph_nil (cm : CostMatrix) (x : Nat → Nat → ℚ)
    (h : remainingGraph cm x = []) :
    ∀ p ∈ pairsOf cm, ¬(0 < x p.1 p.2 ∧ x p.1 p.2 ≠ 1) := by
  unfold remainingGraph at h
  rw [List.map_eq_nil_iff] at h
  intro p hp hcon
  have hmem : p ∈ (pairsOf cm).filter (fun p => decide (0 < x p.1 p.2 ∧ x p.1 p.2 ≠ 1)) := by
    rw [List.mem_filter]
    exact ⟨hp, by simpa using hcon⟩
  rw [h] at hmem
  cases hmem

/-- Setting one cell in an all-false column yields a column with exactly one
assignment. -/
theorem colCount_setCell (cm : CostMatrix) (a : Asg) (mstar j : Nat)
    (hm : mstar < cm.M) (hfree : ∀ m, a m j = false) :
    colCount cm (setCell a mstar j) j = 1 := by
  unfold colCount
  rw [← List.countP_eq_length_filter]
  have hcongr : ∀ m ∈ agents cm,
      ((fun m => setCell a mstar j m j) m = true) ↔ ((fun m => m == mstar) m = true) := by
    intro m _
    by_cases hme : m = mstar
    · subst hme
      simp [setCell]
    · simp [setCell, hme, hfree m]
  rw [List.countP_congr hcongr]
  have hcnt : (agents cm).countP (fun m => m == mstar) = (agents cm).count mstar := rfl
  rw [hcnt]
  exact List.count_eq_one_of_mem (List.nodup_range cm.M) (List.mem_range.mpr hm)


/-- Invariant of the greedy loop: started with all listed job columns clear,
the listed jobs distinct and in range, and at least one machine, the loop
succeeds, ends with exactly one assignment in each processed column, and
leaves every other cell unchanged. -/
theorem greedy_fold (cm : CostMatrix) :
    ∀ (js : List Nat) (a : Asg), js.Nodup → (∀ j ∈ js, j < cm.J) → 0 < cm.M →
      (∀ j ∈ js, ∀ m, a m j = false) →
      ∃ a2, js.foldlM (greedyStep cm) a = Except.ok a2 ∧
        (∀ j ∈ js, colCount cm a2 j = 1) ∧
        (∀ m j, j ∉ js → a2 m j = a m j) := by
  intro js
  induction js with
  | nil =>
    intro a _ _ _ _
    refine ⟨a, rfl, ?_, ?_⟩
    · intro j h
      cases h
    · intro m j _
      rfl
  | cons j rest ih =>
    intro a hnd hbound hM hfree
    have hR : ∃ b rl, List.range cm.M = b :: rl := by
      cases hR2 : List.range cm.M with
      | nil =>
        rw [List.range_eq_nil] at hR2
        omega
      | cons b rl => exact ⟨b, rl, rfl⟩
    obtain ⟨b, rl, hR⟩ := hR
    set mstar := pyMinAux (fun m => cm.c m j + loadOf cm a m) b rl with hmstar
    have hpm : pyMin (fun m => cm.c m j + loadOf cm a m) (List.range cm.M) = some mstar := by
      rw [hR, hmstar]
      rfl
    have hmmem : mstar ∈ List.range cm.M := by
      rw [hR, hmstar]
      rcases pyMinAux_mem (fun m => cm.c m j + loadOf cm a m) rl b with h | h
      · rw [h]
        exact List.mem_cons_self b rl
      · exact List.mem_cons_of_mem b h
    have hmM : mstar < cm.M := List.mem_range.mp hmmem
    have hcell : a mstar j = false := hfree j (List.mem_cons_self j rest) mstar
    have hjJ : j < cm.J := hbound j (List.mem_cons_self j rest)
    have hsc : scedual cm a mstar j = (Except.ok (), setCell a mstar j) := by
      unfold scedual
      rw [if_pos (⟨hmM, hjJ⟩ : mstar < cm.M ∧ j < cm.J)]
      rw [if_neg (by simp [hcell])]
    have hstep : greedyStep cm a j = Except.ok (setCell a mstar j) := by
      simp only [greedyStep, hpm, hsc]
    have hnd2 := List.nodup_cons.mp hnd
    have hjnotin : j ∉ rest := hnd2.1
    have hbound2 : ∀ j' ∈ rest, j' < cm.J :=
      fun j' hj' => hbound j' (List.mem_cons_of_mem j hj')
    have hfree2 : ∀ j' ∈ rest, ∀ m, setCell a mstar j m j' = false := by
      intro j' hj' m
      unfold setCell
      rw [if_neg (by
        rintro ⟨_, hj'eq⟩
        exact hjnotin (hj'eq ▸ hj'))]
      exact hfree j' (List.mem_cons_of_mem j hj') m
    obtain ⟨a2, hfold, hcols, hpres⟩ := ih (setCell a mstar j) hnd2.2 hbound2 hM hfree2
    refine ⟨a2, ?_, ?_, ?_⟩
    · rw [List.foldlM_cons, hstep]
      exact hfold
    · intro j' hj'
      rcases List.mem_cons.mp hj' with hj'eq | hj'mem
      · subst hj'eq
        have hccpres : colCount cm a2 j' = colCount cm (setCell a mstar j') j' := by
          unfold colCount
          rw [← List.countP_eq_length_filter, ← List.countP_eq_length_filter]
          apply List.countP_congr
          intro m _
          rw [hpres m j' hjnotin]
        rw [hccpres]
        exact colCount_setCell cm a mstar j' hmM
          (fun m => hfree j' (List.mem_cons_self j' rest) m)
      · exact hcols j' hj'mem
    · intro m j' hj'notin
      have h1 : a2 m j' = setCell a mstar j m j' :=
        hpres m j' (fun hmem => hj'notin (List.mem_cons_of_mem j hmem))
      rw [h1]
      unfold setCell
      rw [if_neg (by
        rintro ⟨_, hj'eq⟩
        exact hj'notin (hj'eq ▸ List.mem_cons_self j rest))]

/-- Claim C3 amended: after a completed greedy run started on a cleared state
(and at least one machine), every job is assigned to exactly one machine.
After a rounding step that completed on a solver solution satisfying the LP
constraints the code builds, every job is assigned to AT LEAST one machine --
but, as the counterexample shows, possibly to more than one, because the code
leaves the variables of non-eligible (machine, job) pairs unconstrained above
zero. -/
theorem c3_amended_coverage :
    (∀ (cm : CostMatrix) (a2 : Asg), 0 < cm.M →
      greedy cm emptyAsg = Except.ok a2 → ∀ j, j < cm.J → colCount cm a2 j = 1) ∧
    (∀ (cm : CostMatrix) (B : ℚ) (x : Nat → Nat → ℚ) (a2 : Asg),
      codeLPok cm B x = true → Round cm x emptyAsg = Except.ok a2 →
      ∀ j, j < cm.J → 1 ≤ colCount cm a2 j) := by
  constructor
  · intro cm a2 hM hg j hj
    obtain ⟨a2', hfold, hcols, _⟩ := greedy_fold cm (objects cm) emptyAsg
      (List.nodup_range cm.J) (fun j2 hj2 => List.mem_range.mp hj2) hM
      (fun _ _ _ => rfl)
    have heq : a2' = a2 := by
      unfold greedy at hg
      rw [hfold] at hg
      injection hg
    subst heq
    exact hcols j (List.mem_range.mpr hj)
  · intro cm B x a2 hok hround j hj
    obtain ⟨hci, hrem⟩ := Round_ok cm x emptyAsg a2 hround
    obtain ⟨hmono, hcommit⟩ := commit_fold cm x (pairsOf cm) emptyAsg a2 hci
    simp only [codeLPok, Bool.and_eq_true] at hok
    obtain ⟨⟨⟨⟨hb0, _⟩, hc0⟩, _⟩, _⟩ := hok
    have hjmem : j ∈ objects cm := List.mem_range.mpr hj
    have hcov : ((eligibleMachines cm B j).map (fun m => x m j)).sum = 1 := by
      have := List.all_eq_true.mp hc0 j hjmem
      exact of_decide_eq_true this
    have hex : ∃ m ∈ eligibleMachines cm B j, x m j = 1 := by
      by_contra hnone
      push_neg at hnone
      have hall0 : ∀ y ∈ (eligibleMachines cm B j).map (fun m => x m j), y = 0 := by
        intro y hy
        obtain ⟨m, hm1, hm2⟩ := List.mem_map.mp hy
        have hmag : m ∈ agents cm := List.mem_of_mem_filter hm1
        have hpair : (m, j) ∈ pairsOf cm := by
          unfold pairsOf
          exact List.mem_product.mpr ⟨hmag, hjmem⟩
        have hfrac := remainingGraph_nil cm x hrem (m, j) hpair
        have hne1 : x m j ≠ 1 := hnone m hm1
        have hle0 : ¬ 0 < x m j := fun hpos => hfrac ⟨hpos, hne1⟩
        have hge0 : 0 ≤ x m j := by
          have := List.all_eq_true.mp hb0 (m, j) hpair
          exact (of_decide_eq_true this).1
        rw [← hm2]
        exact le_antisymm (not_lt.mp hle0) hge0
      rw [List.sum_eq_zero hall0] at hcov
      norm_num at hcov
    obtain ⟨m, hmel, hm1⟩ := hex
    have hmag : m ∈ agents cm := List.mem_of_mem_filter hmel
    have hpair : (m, j) ∈ pairsOf cm := by
      unfold pairsOf
      exact List.mem_product.mpr ⟨hmag, hjmem⟩
    have ha2 : a2 m j = true := hcommit (m, j) hpair hm1
    unfold colCount
    exact List.length_pos_of_mem (List.mem_filter.mpr ⟨hmag, by simpa using ha2⟩)

/-- The 2-machine, 1-job cost matrix `[[1], [5]]`: machine 1 is not eligible
for the only job at bound 1. -/
def cm31 : CostMatrix := ⟨2, 1, fun m _ => if m = 0 then 1 else 5⟩

/-- An integral optimal solution of the LP built on `cm31` at bound 1 that
assigns job 0 to BOTH machines: the non-eligible pair (1, 0) is constrained
only by `0 ≤ x ≤ 1` and by the raw row-sum makespan, so `x[1][0] = 1` is
allowed and optimal. -/
def xC3 : Nat → Nat → ℚ := fun m j => if m ≤ 1 ∧ j = 0 then 1 else 0

/-- A solver returning `xC3` at bound 1 and infeasible below. -/
def oracle31 : ℚ → Option (Nat → Nat → ℚ) := fun b => if b = 1 then some xC3 else none

/-- Claim C3 is refuted on this run: `xC3` satisfies every constraint of the
LP the code builds on `cm31 = [[1],[5]]` at bound 1 and is optimal for its
objective, the rounding step completes on it, and the full approximation run
(initial bounds from greedy, the binary search run to its end) finishes with
job 0 assigned to TWO machines -- not exactly one. -/
theorem c3_counterexample :
    codeLPok cm31 1 xC3 = true ∧
    codeLPoptimal cm31 1 xC3 ∧
    (Round cm31 xC3 emptyAsg).toOption.map (fun a => colCount cm31 a 0) = some 2 ∧
    boundsView (apprxInit cm31 emptyAsg) = some (1/2, 1) ∧
    stoppedB ((apprxStep cm31 oracle31)^[20] (apprxInit cm31 emptyAsg)) = true ∧
    colView cm31 ((apprxStep cm31 oracle31)^[20] (apprxInit cm31 emptyAsg)) 0 = some 2 ∧
    (2 : Nat) ≠ 1 := by
  refine ⟨by with_unfolding_all rfl,
          ⟨by with_unfolding_all rfl, ?_⟩,
          by with_unfolding_all rfl,
          by with_unfolding_all rfl,
          by with_unfolding_all rfl,
          by with_unfolding_all rfl,
          by decide⟩
  intro y v w hy hv hw
  have hobj : codeLPobj cm31 xC3 = some 1 := by with_unfolding_all rfl
  rw [hobj] at hv
  have hv1 : v = 1 := (Option.some.inj hv).symm
  simp only [codeLPok, Bool.and_eq_true] at hy
  obtain ⟨⟨⟨⟨_, _⟩, hc0⟩, _⟩, _⟩ := hy
  have hjmem : (0 : Nat) ∈ objects cm31 := by decide
  have hcov : ((eligibleMachines cm31 1 0).map (fun m => y m 0)).sum = 1 :=
    of_decide_eq_true (List.all_eq_true.mp hc0 0 hjmem)
  have hel : eligibleMachines cm31 1 0 = [0] := by with_unfolding_all rfl
  rw [hel] at hcov
  have hy00 : y 0 0 = 1 := by simpa using hcov
  have hag : agents cm31 = [0, 1] := rfl
  unfold codeLPobj at hw
  rw [hag] at hw
  simp only [List.map_cons, List.map_nil, pyMax] at hw
  have hwv : [rowSum cm31 y 1].foldl max (rowSum cm31 y 0) = w := Option.some.inj hw
  have hle : rowSum cm31 y 0 ≤ w := by
    rw [← hwv]
    exact foldl_max_ge _ _ _ (Or.inl rfl)
  have hr0 : rowSum cm31 y 0 = y 0 0 := by
    unfold rowSum
    have hobj2 : objects cm31 = [0] := rfl
    rw [hobj2]
    simp
  rw [hv1]
  rw [hr0, hy00] at hle
  exact hle

theorem c3_amended_coverage_witness :
    colCount ⟨1, 1, fun _ _ => 1⟩ (setCell emptyAsg 0 0) 0 = 1 ∧
    1 ≤ colCount cm31 (setCell (setCell emptyAsg 0 0) 1 0) 0 :=
  ⟨c3_amended_coverage.1 ⟨1, 1, fun _ _ => 1⟩ (setCell emptyAsg 0 0) (by decide)
      (by with_unfolding_all rfl) 0 (by decide),
   c3_amended_coverage.2 cm31 1 xC3 (setCell (setCell emptyAsg 0 0) 1 0)
      (by with_unfolding_all decide) (by with_unfolding_all rfl) 0 (by decide)⟩

/-- Representability as an IEEE binary64 value: zero, or `m * 2^e` with a
53-bit significand.  The exponent range is left unbounded: overflow and
subnormal limits are irrelevant at the magnitudes involved here, and
enlarging the representable set only strengthens the nearest-value condition
below, so every true binary64 rounding at these magnitudes satisfies it. -/
def f64 (q : ℚ) : Prop :=
  q = 0 ∨ ∃ (m e : ℤ), q = (m : ℚ) * (2:ℚ) ^ e ∧ |m| < 2 ^ 53

/-- IEEE round-to-nearest: `r` is a representable value closest to `x`.
Every tie-breaking rule (ties-to-even included) satisfies this. -/
def roundsTo (x r : ℚ) : Prop :=
  f64 r ∧ ∀ s, f64 s → |x - r| ≤ |x - s|

/-- Powers of two are representable (integer exponent). -/
theorem f64_pow2 (e : ℤ) : f64 ((2:ℚ) ^ e) :=
  Or.inr ⟨1, e, by simp, by norm_num⟩

/-- Powers of two are representable (natural exponent). -/
theorem f64_pow2n (n : ℕ) : f64 ((2:ℚ) ^ n) :=
  Or.inr ⟨1, (n:ℤ), by rw [zpow_natCast]; simp, by norm_num⟩

/-- Rounding a representable value returns it unchanged. -/
theorem roundsTo_self (x r : ℚ) (hx : f64 x) (h : roundsTo x r) : r = x := by
  have h0 := h.2 x hx
  rw [sub_self, abs_zero] at h0
  have h1 : |x - r| = 0 := le_antisymm h0 (abs_nonneg _)
  have h2 := abs_eq_zero.mp h1
  linarith

/-- Gap lemma for the binary64 grid: no representable value lies strictly
between two consecutive grid points `c * 2^t` and `(c+1) * 2^t` of a binade
(`2^52 ≤ c`): any representable value above `c * 2^t` must itself be an
integer multiple of `2^t`, since a smaller exponent would cap it below the
binade. -/
theorem f64_grid_gap (r : ℚ) (hr : f64 r) (c t : ℤ) (hc1 : (2:ℤ)^52 ≤ c)
    (h1 : (c:ℚ) * (2:ℚ)^t < r) (h2 : r < ((c:ℚ) + 1) * (2:ℚ)^t) : False := by
  have h2t : (0:ℚ) < (2:ℚ)^t := zpow_pos (by norm_num) t
  have hcq : ((2:ℚ))^(52:ℕ) ≤ (c:ℚ) := by exact_mod_cast hc1
  have hcpos : (0:ℚ) < (c:ℚ) * (2:ℚ)^t := by
    apply mul_pos _ h2t
    have h52 : (0:ℚ) < (2:ℚ)^(52:ℕ) := by positivity
    linarith
  rcases hr with h0 | ⟨m, e, hme, hm⟩
  · rw [h0] at h1
    linarith
  · by_cases het : t ≤ e
    · obtain ⟨k, hk⟩ : ∃ k : ℤ, r = (k:ℚ) * (2:ℚ)^t := by
        refine ⟨m * 2 ^ (e - t).toNat, ?_⟩
        have h2e : (2:ℚ)^e = (2:ℚ)^(((e - t).toNat : ℤ)) * (2:ℚ)^t := by
          rw [← zpow_add₀ (by norm_num : (2:ℚ) ≠ 0)]
          congr 1
          omega
        rw [hme, h2e]
        push_cast [zpow_natCast]
        ring
      rw [hk] at h1 h2
      have hck : (c:ℚ) < (k:ℚ) := (mul_lt_mul_right h2t).mp h1
      have hkc : (k:ℚ) < (c:ℚ) + 1 := (mul_lt_mul_right h2t).mp h2
      have hck2 : c < k := by exact_mod_cast hck
      have hkc2 : k < c + 1 := by exact_mod_cast hkc
      omega
    · push_neg at het
      have hm2 : (m:ℚ) ≤ (2:ℚ)^(53:ℕ) - 1 := by
        have h3 := (abs_lt.mp hm).2
        have h4 : m ≤ 2^53 - 1 := by omega
        calc (m:ℚ) ≤ ((2^53 - 1 : ℤ) : ℚ) := by exact_mod_cast h4
          _ = (2:ℚ)^(53:ℕ) - 1 := by push_cast; ring
      have h2e : (0:ℚ) < (2:ℚ)^e := zpow_pos (by norm_num) e
      have h3 : r ≤ ((2:ℚ)^(53:ℕ) - 1) * (2:ℚ)^e := by
        rw [hme]
        exact mul_le_mul_of_nonneg_right hm2 (le_of_lt h2e)
      have h5 : (2:ℚ)^e ≤ (2:ℚ)^(t-1) := zpow_le_zpow_right₀ (by norm_num) (by omega)
      have h53pos : (0:ℚ) ≤ (2:ℚ)^(53:ℕ) - 1 := by norm_num
      have h6 : ((2:ℚ)^(53:ℕ) - 1) * (2:ℚ)^e ≤ ((2:ℚ)^(53:ℕ) - 1) * (2:ℚ)^(t-1) :=
        mul_le_mul_of_nonneg_left h5 h53pos
      have h2t1 : (0:ℚ) < (2:ℚ)^(t-1) := zpow_pos (by norm_num) (t-1)
      have h7 : ((2:ℚ)^(53:ℕ) - 1) * (2:ℚ)^(t-1) < (2:ℚ)^(53:ℕ) * (2:ℚ)^(t-1) := by
        nlinarith
      have h8 : (2:ℚ)^(53:ℕ) * (2:ℚ)^(t-1) = (2:ℚ)^(52:ℕ) * (2:ℚ)^t := by
        rw [← zpow_natCast (2:ℚ) 53, ← zpow_natCast (2:ℚ) 52,
          ← zpow_add₀ (by norm_num : (2:ℚ) ≠ 0), ← zpow_add₀ (by norm_num : (2:ℚ) ≠ 0)]
        congr 1
        push_cast
        omega
      have h9 : (2:ℚ)^(52:ℕ) * (2:ℚ)^t ≤ (c:ℚ) * (2:ℚ)^t :=
        mul_le_mul_of_nonneg_right hcq (le_of_lt h2t)
      linarith

/-- The binary64 value of the literal `0.0001` is positive and below
`2^(-11)`: it lies within half an ulp of 1/10000 (witnessed against the
representable `2^(-13)`). -/
theorem roundsTo_eps_bounds (eps : ℚ) (h : roundsTo (1/10000) eps) :
    0 < eps ∧ eps < (2:ℚ)^(-11:ℤ) := by
  obtain ⟨_, hmin⟩ := h
  have hd := hmin _ (f64_pow2 (-13))
  have h13 : (2:ℚ)^(-13:ℤ) = 1/8192 := by norm_num
  rw [h13] at hd
  have he : |1/10000 - (1/8192 : ℚ)| = 1/8192 - 1/10000 := by
    rw [abs_of_neg (by norm_num)]
    ring
  rw [he] at hd
  rw [abs_le] at hd
  have h11 : (2:ℚ)^(-11:ℤ) = 1/2048 := by norm_num
  constructor
  · linarith [hd.2]
  · rw [h11]
    linarith [hd.1]

/-- Absorption above: adding `eps < 2^(-11)` to `2^43` rounds back to `2^43`,
because the ulp of `2^43` is `2^(-9)` and no representable value lies in
`(2^43, 2^43 + 2^(-9))`. -/
theorem roundsTo_absorb_up (eps r : ℚ) (h1 : 0 < eps) (h2 : eps < (2:ℚ)^(-11:ℤ))
    (hr : roundsTo ((2:ℚ)^(43:ℕ) + eps) r) : r = (2:ℚ)^(43:ℕ) := by
  obtain ⟨hf, hmin⟩ := hr
  have hd := hmin _ (f64_pow2n 43)
  have he : |(2:ℚ)^(43:ℕ) + eps - (2:ℚ)^(43:ℕ)| = eps := by
    rw [show (2:ℚ)^(43:ℕ) + eps - (2:ℚ)^(43:ℕ) = eps by ring]
    exact abs_of_pos h1
  rw [he] at hd
  rw [abs_le] at hd
  by_contra hne
  have hg : (2:ℚ)^(43:ℕ) < r := by
    rcases lt_or_eq_of_le (by linarith [hd.2] : (2:ℚ)^(43:ℕ) ≤ r) with h | h
    · exact h
    · exact absurd h.symm hne
  have hlt : r < (2:ℚ)^(43:ℕ) + (2:ℚ)^(-9:ℤ) := by
    have hb : r ≤ (2:ℚ)^(43:ℕ) + 2 * eps := by linarith [hd.1]
    have h11 : (2:ℚ)^(-11:ℤ) = 1/2048 := by norm_num
    have h9 : (2:ℚ)^(-9:ℤ) = 1/512 := by norm_num
    rw [h11] at h2
    rw [h9]
    linarith
  apply f64_grid_gap r hf (2^52) (-9) (le_refl _)
  · have hco : (((2:ℤ)^52 : ℤ):ℚ) * (2:ℚ)^(-9:ℤ) = (2:ℚ)^(43:ℕ) := by
      push_cast
      norm_num
    rw [hco]
    exact hg
  · have hco : ((((2:ℤ)^52 : ℤ):ℚ) + 1) * (2:ℚ)^(-9:ℤ) = (2:ℚ)^(43:ℕ) + (2:ℚ)^(-9:ℤ) := by
      push_cast
      norm_num
    rw [hco]
    exact hlt

/-- Absorption below: subtracting `eps < 2^(-11)` from `2^43` rounds back to
`2^43`, because the grid step just below `2^43` is `2^(-10)` and no
representable value lies in `(2^43 - 2^(-10), 2^43)`. -/
theorem roundsTo_absorb_down (eps r : ℚ) (h1 : 0 < eps) (h2 : eps < (2:ℚ)^(-11:ℤ))
    (hr : roundsTo ((2:ℚ)^(43:ℕ) - eps) r) : r = (2:ℚ)^(43:ℕ) := by
  obtain ⟨hf, hmin⟩ := hr
  have hd := hmin _ (f64_pow2n 43)
  have he : |(2:ℚ)^(43:ℕ) - eps - (2:ℚ)^(43:ℕ)| = eps := by
    rw [show (2:ℚ)^(43:ℕ) - eps - (2:ℚ)^(43:ℕ) = -eps by ring]
    rw [abs_neg]
    exact abs_of_pos h1
  rw [he] at hd
  rw [abs_le] at hd
  by_contra hne
  have hg : r < (2:ℚ)^(43:ℕ) := by
    rcases lt_or_eq_of_le (by linarith [hd.1] : r ≤ (2:ℚ)^(43:ℕ)) with h | h
    · exact h
    · exact absurd h hne
  have hlt : (2:ℚ)^(43:ℕ) - (2:ℚ)^(-10:ℤ) < r := by
    have hb : (2:ℚ)^(43:ℕ) - 2 * eps ≤ r := by linarith [hd.2]
    have h11 : (2:ℚ)^(-11:ℤ) = 1/2048 := by norm_num
    have h10 : (2:ℚ)^(-10:ℤ) = 1/1024 := by norm_num
    rw [h11] at h2
    rw [h10]
    linarith
  apply f64_grid_gap r hf (2^53 - 1) (-10) (by norm_num)
  · have hco : (((2:ℤ)^53 - 1 : ℤ):ℚ) * (2:ℚ)^(-10:ℤ) = (2:ℚ)^(43:ℕ) - (2:ℚ)^(-10:ℤ) := by
      push_cast
      norm_num
    rw [hco]
    exact hlt
  · have hco : ((((2:ℤ)^53 - 1 : ℤ):ℚ) + 1) * (2:ℚ)^(-10:ℤ) = (2:ℚ)^(43:ℕ) := by
      push_cast
      norm_num
    rw [hco]
    exact hg

/-- One iteration of the `while lower <= upper` body (source lines 219-226)
under correctly rounded binary64 arithmetic, as a relation on the pair of
bounds: the sum `upper + lower`, the halving, the literal `0.0001`, and the
final update are each correctly rounded; the feasibility verdict is left
arbitrary (either branch may be taken), and a state with `lower > upper` is
final.  Solver exceptions are not modelled: on the counterexample input the
oracle either returns False or completes rounding on the forced integral
solution, and an exception would in any case end the run by a raise, not by
the loop condition failing as the claim describes. -/
def floatStepRel (p q : ℚ × ℚ) : Prop :=
  (¬ p.1 ≤ p.2 ∧ q = p) ∨
  (p.1 ≤ p.2 ∧ ∃ s mid eps, roundsTo (p.2 + p.1) s ∧ roundsTo (s / 2) mid ∧
    roundsTo (1/10000) eps ∧
    ((∃ lo, roundsTo (mid + eps) lo ∧ q = (lo, p.2)) ∨
     (∃ hi, roundsTo (mid - eps) hi ∧ q = (p.1, hi))))

/-- The pair is inside the loop (`lower ≤ upper`) and is a fixpoint of every
correctly rounded iteration: a binary64 execution of the binary search never
leaves it, so the loop condition never fails and the loop never exits. -/
def floatLoopStuck (p : ℚ × ℚ) : Prop :=
  p.1 ≤ p.2 ∧ ∀ q, floatStepRel p q → q = p

/-- The 1-machine, 1-job cost matrix `[[2^43]]`: the cost is exactly
representable in binary64, the greedy makespan is `2^43` (a sum of one term
and a maximum over one machine, both exact in floats), and `lower =
upper / 1 = 2^43` (exact division), so the loop starts at `(2^43, 2^43)`. -/
def cm43 : CostMatrix := ⟨1, 1, fun _ _ => 2 ^ 43⟩

/-- Claim C9 is refuted in the program's binary64 arithmetic: on the cost
matrix `[[2^43]]` the binary search starts at `lower = upper = 2^43`, and
that state is a fixpoint of every correctly rounded iteration -- the ulp of
`2^43` is about 0.002, so `middle + 0.0001` and `middle - 0.0001` both round
back to `2^43` whichever branch is taken -- while the loop condition
`lower ≤ upper` holds at it; the loop therefore never exits and the claim
that it terminates for every input is false. -/
theorem c9_float_counterexample :
    boundsView (apprxInit cm43 emptyAsg) = some ((2:ℚ) ^ 43, (2:ℚ) ^ 43) ∧
    floatLoopStuck ((2:ℚ) ^ 43, (2:ℚ) ^ 43) := by
  refine ⟨by with_unfolding_all rfl, ?_⟩
  unfold floatLoopStuck
  refine ⟨le_refl _, ?_⟩
  intro q hq
  unfold floatStepRel at hq
  rcases hq with ⟨hnot, _⟩ | ⟨_, s, mid, eps, hs, hmid, heps, hbr⟩
  · exact absurd (le_refl ((2:ℚ)^(43:ℕ))) hnot
  · have hs2 : roundsTo ((2:ℚ)^(43:ℕ) + (2:ℚ)^(43:ℕ)) s := hs
    rw [show (2:ℚ)^(43:ℕ) + (2:ℚ)^(43:ℕ) = (2:ℚ)^(44:ℕ) by ring] at hs2
    have hs44 : s = (2:ℚ)^(44:ℕ) := roundsTo_self _ _ (f64_pow2n 44) hs2
    rw [hs44] at hmid
    rw [show (2:ℚ)^(44:ℕ) / 2 = (2:ℚ)^(43:ℕ) by ring] at hmid
    have hmid43 : mid = (2:ℚ)^(43:ℕ) := roundsTo_self _ _ (f64_pow2n 43) hmid
    obtain ⟨he1, he2⟩ := roundsTo_eps_bounds eps heps
    rcases hbr with ⟨lo, hlo, hq⟩ | ⟨hi, hhi, hq⟩
    · rw [hmid43] at hlo
      have hl : lo = (2:ℚ)^(43:ℕ) := roundsTo_absorb_up eps lo he1 he2 hlo
      rw [hq, hl]
    · rw [hmid43] at hhi
      have hh : hi = (2:ℚ)^(43:ℕ) := roundsTo_absorb_down eps hi he1 he2 hhi
      rw [hq, hh]
